import Mathlib

/-!
Verification of the ring leader-election program `network.py`.

The program runs one monitor process (`drawer_worker`, MPI rank 0) and
`number_of_communicators` ring nodes (`communicator_worker`, ranks 1..N).
This file embeds:

* the per-node protocol state machine of `communicator_worker` (lines 177-222)
  as an explicit automaton `nodeRecv` over program-counter states,
* the whole ring as a deterministic message-passing executor
  (`Config`, `stepAt`, `sweep`, `runAsync`) with one FIFO queue per ring link,
* the ring addressing helpers `dst` / `src` (lines 85-96),
* the id validation `get_vxs` (lines 108-141) over `List Char` lines,
* the monitor collection loop of `drawer_worker` (lines 156-173), and
* a round abstraction (`phaseCands`, `electRounds`) of the election used to
  prove the general outcome of the protocol for every ring size.
-/

namespace Network

/-- Role of a ring node, from `class State(Enum)` (lines 22-26). -/
inductive State where
  | active
  | passive
  | leader
  | loser
deriving DecidableEq

/-- Protocol message. The algorithm dictionaries are tagged by their single
key: `one` is the probe sent at line 189, `two` the challenge sent at
line 203, `small` the announcement sent at line 196. The payload is the
candidate id carried by the dictionary value. -/
inductive Msg where
  | one (v : ℕ)
  | two (v : ℕ)
  | small (v : ℕ)
deriving DecidableEq

/-- Payload of a protocol message. -/
def msgVal : Msg → ℕ
  | .one v => v
  | .two v => v
  | .small v => v

/-- Status event sent to the drawer over DRAWING_TAG: either the node's
`state_data` dictionary (`ci` and `state`, line 105) or the final
`need_stop` dictionary (line 222). -/
inductive Event where
  | stat (ci : ℕ) (st : State)
  | needStop
deriving DecidableEq

/-- True exactly for the `need_stop` event (checked at line 163). -/
def isStop : Event → Bool
  | .needStop => true
  | _ => false

/-- Control point of `communicator_worker`, naming the `comm.recv` call the
node is blocked at: line 191 (`waitOne`), line 205 (`waitTwo`, remembering
the forwarded value `acn`), line 200 (`waitSmallBack`), line 213
(`waitRelay`).  `done` is reached after line 222, `crashed` models a failed
`assert` on an unexpected message shape. -/
inductive PC where
  | waitOne
  | waitTwo (acn : ℕ)
  | waitSmallBack
  | waitRelay
  | done
  | crashed
deriving DecidableEq

/-- Local state of one communicator: `ci` and `st` are the fields of
`state_data` (line 185), `win` the variable of line 184 with `-1` as the
sentinel, `ownId` the immutable `vxs[rank - 1]`, `pc` the control point and
`events` the sequence of status events sent to the drawer so far. -/
structure NodeSt where
  ci : ℕ
  st : State
  win : ℤ
  ownId : ℕ
  pc : PC
  events : List Event
deriving DecidableEq

/-- Lines 217-222: on leaving the while loop the node compares `win` with its
original id `vxs[rank - 1]`, sets its final role and reports `need_stop`. -/
def finalize (s : NodeSt) : NodeSt :=
  { s with st := if s.win = (s.ownId : ℤ) then State.leader else State.loser,
           pc := PC.done,
           events := s.events ++ [Event.needStop] }

/-- One reaction of `communicator_worker` to the message delivered at the
`comm.recv` it is blocked at.  Returns the new local state and the protocol
messages it sends to its successor before blocking again.  Each protocol
send (the `send` helper, lines 103-105) also appends a copy of the current
`state_data` to `events`.

* `waitOne` (line 191, `assert 'one'`): if the probe equals the own
  candidate, send `small` and wait for it to come back (lines 195-200);
  otherwise forward a `two` challenge and wait for the next challenge
  (lines 202-205).
* `waitTwo acn` (line 205, `assert 'two'`): adopt `acn` and loop (so the
  next probe `one acn` is sent at line 189) exactly when
  `acn < ci ∧ acn < w` (lines 208-209); otherwise become passive
  (line 211).
* `waitSmallBack` (line 200, `assert 'small'`): the announcement returned;
  `win ≠ -1`, so the loop exits and the node finalizes.
* `waitRelay` (line 213, passive branch): record `win` if the message is an
  announcement (line 214), forward the message unchanged (line 215), then
  re-check the loop condition `win == -1`. -/
def nodeRecv (s : NodeSt) (m : Msg) : NodeSt × List Msg :=
  match s.pc, m with
  | PC.waitOne, .one v =>
    if v = s.ci then
      ({ s with win := (v : ℤ), pc := PC.waitSmallBack,
                events := s.events ++ [Event.stat s.ci s.st] }, [Msg.small v])
    else
      ({ s with pc := PC.waitTwo v,
                events := s.events ++ [Event.stat s.ci s.st] }, [Msg.two v])
  | PC.waitOne, _ => ({ s with pc := PC.crashed }, [])
  | PC.waitTwo acn, .two w =>
    if acn < s.ci ∧ acn < w then
      ({ s with ci := acn, pc := PC.waitOne,
                events := s.events ++ [Event.stat acn s.st] }, [Msg.one acn])
    else
      ({ s with st := State.passive, pc := PC.waitRelay }, [])
  | PC.waitTwo _, _ => ({ s with pc := PC.crashed }, [])
  | PC.waitSmallBack, .small _ => (finalize s, [])
  | PC.waitSmallBack, _ => ({ s with pc := PC.crashed }, [])
  | PC.waitRelay, m =>
    let s1 := match m with
      | .small v => { s with win := (v : ℤ) }
      | _ => s
    let s2 := { s1 with events := s1.events ++ [Event.stat s1.ci s1.st] }
    if s2.win = -1 then (s2, [m]) else (finalize s2, [m])
  | PC.done, _ => (s, [])
  | PC.crashed, _ => (s, [])

/-- Global configuration: `nodes.get? i` is the communicator of rank `i + 1`
and `queues.get? i` the FIFO queue of messages in flight from node `i` to
its ring successor. -/
structure Config where
  nodes : List NodeSt
  queues : List (List Msg)
deriving DecidableEq

/-- Initial local state (lines 184-185).  With a single communicator `win`
is initialized to the node's own id, the while loop never runs, and the node
finalizes immediately; otherwise the node is active with `win = -1` and its
first action in the loop is the probe send of line 189, whose status event
is recorded here. -/
def initNode (n : ℕ) (id : ℕ) : NodeSt :=
  if n ≤ 1 then
    { ci := id, st := State.leader, win := (id : ℤ), ownId := id,
      pc := PC.done, events := [Event.needStop] }
  else
    { ci := id, st := State.active, win := -1, ownId := id,
      pc := PC.waitOne, events := [Event.stat id State.active] }

/-- Initial configuration for the ring with ids `ids` (one per rank, in ring
order): every node has sent its first probe `one ci` (line 189) and blocks
at line 191; with a single communicator no message is ever sent. -/
def initConfig (ids : List ℕ) : Config :=
  { nodes := ids.map (initNode ids.length),
    queues := ids.map (fun v => if ids.length ≤ 1 then [] else [Msg.one v]) }

/-- Deliver to node `i` the head message of its predecessor's queue, if the
node is still running and such a message exists, and append the node's
replies to its own out queue.  Ranks map to indices so that the predecessor
link of node `i` is queue `(i + N - 1) % N` (`src`, lines 92-96). -/
def stepAt (cfg : Config) (i : ℕ) : Config :=
  match cfg.nodes.get? i, cfg.queues.get? ((i + cfg.nodes.length - 1) % cfg.nodes.length) with
  | some s, some (m :: q) =>
    if s.pc = PC.done ∨ s.pc = PC.crashed then cfg
    else
      let r := nodeRecv s m
      let qs := cfg.queues.set ((i + cfg.nodes.length - 1) % cfg.nodes.length) q
      { nodes := cfg.nodes.set i r.1,
        queues := qs.set i (qs.getD i [] ++ r.2) }
  | _, _ => cfg

/-- One round-robin sweep: offer a delivery to every node in rank order.
Message-passing between the nodes is deterministic (each node consumes a
single FIFO input stream), so the choice of a fair schedule does not affect
the outcome; the round-robin sweep is one such schedule. -/
def sweep (cfg : Config) : Config :=
  (List.range cfg.nodes.length).foldl stepAt cfg

/-- Iterate `sweep` a given number of times. -/
def runSweeps : ℕ → Config → Config
  | 0, cfg => cfg
  | fuel + 1, cfg => runSweeps fuel (sweep cfg)

/-- Run the ring on ids `ids` for `fuel` round-robin sweeps. -/
def runAsync (ids : List ℕ) (fuel : ℕ) : Config :=
  runSweeps fuel (initConfig ids)

/-- The completed run of scenario A, ids `[5, 3, 9, 1]`. -/
def scenarioA : Config := runAsync [5, 3, 9, 1] 24

/-- The completed run of scenario B, ids `[1, 2]`. -/
def scenarioB : Config := runAsync [1, 2] 8

/-- Successor rank (lines 85-89): rank `number_of_communicators` wraps to 1. -/
def dst (rank numComm : ℕ) : ℕ :=
  if rank = numComm then 1 else rank + 1

/-- Predecessor rank (lines 92-96): rank 1 wraps to `number_of_communicators`. -/
def src (rank numComm : ℕ) : ℕ :=
  if rank = 1 then numComm else rank - 1

/-- The outcomes of `finish` (lines 29-36, 52-55): each aborts the whole run
with the corresponding `Error` message and a non-zero exit status.
`valueError` models the uncaught `ValueError` a failing `int(line)`
(line 125) would raise; it also aborts the run, but without a `finish`
message. -/
inductive Err where
  | invalidNumberOfArguments
  | invalidNumberOfCommunicators
  | invalidMode
  | fileNotFound
  | ciIsNotAnInt (s : List Char)
  | ciDuplication (n : ℕ)
  | valueError
deriving DecidableEq

/-- Python `str.isdecimal` restricted to ASCII input: non-empty and all
digits (in particular `''.isdecimal()` is `False`). -/
def pyIsDecimal (s : List Char) : Bool :=
  !s.isEmpty && s.all (fun c => c.isDigit)

/-- Python `line[:-1]`: the line with its final character removed
(`[] ` for the empty string). -/
def lineInit (s : List Char) : List Char :=
  s.dropLast

/-- Whitespace stripped by Python `int` before parsing. -/
def isWS (c : Char) : Bool :=
  c == ' ' || c == '\n' || c == '\t' || c == '\r'

/-- Strip leading and trailing whitespace. -/
def pyTrim (s : List Char) : List Char :=
  ((s.dropWhile isWS).reverse.dropWhile isWS).reverse

/-- Numeric value of a digit string. -/
def digitsVal (s : List Char) : ℕ :=
  s.foldl (fun acc c => 10 * acc + (c.toNat - 48)) 0

/-- Python `int(line)` for the non-negative inputs this program feeds it:
strip whitespace, then parse a digit string; `none` models the raised
`ValueError`. -/
def pyInt (s : List Char) : Option ℕ :=
  let t := pyTrim s
  if !t.isEmpty && t.all (fun c => c.isDigit) then some (digitsVal t) else none

/-- The per-line loop of `get_vxs` (lines 121-129): first the decimality
check of `line[:-1]` (line 122), then `int(line)` (line 125), then the
duplication check against the ids collected so far (line 126). -/
def readLines : List (List Char) → List ℕ → Except Err (List ℕ)
  | [], acc => Except.ok acc
  | line :: rest, acc =>
    if pyIsDecimal (lineInit line) = false then Except.error (Err.ciIsNotAnInt (lineInit line))
    else
      match pyInt line with
      | none => Except.error Err.valueError
      | some ci =>
        if ci ∈ acc then Except.error (Err.ciDuplication ci)
        else readLines rest (acc ++ [ci])

/-- The characters of the mode string `from_file`. -/
def fromFileChars : List Char := ['f', 'r', 'o', 'm', '_', 'f', 'i', 'l', 'e']

/-- The characters of the mode string `random`. -/
def randomChars : List Char := ['r', 'a', 'n', 'd', 'o', 'm']

/-- `get_vxs` (lines 108-141).  `file` models the filesystem: `file p` is
`some lines` when path `p` exists, where each element of `lines` is one
line as yielded by iterating the open file (with its trailing newline,
except possibly the last line).  `rand` models `random.sample`: `rand k`
is the list of `k` distinct sampled ids.  An `Except.error` result models a
`finish` abort (or, for `valueError`, an uncaught exception): the system
stops before `comm.bcast` (line 146), so no protocol message is ever
exchanged in that case. -/
def getVxs (numComm : ℕ) (file : List Char → Option (List (List Char)))
    (argv : List (List Char)) (rand : ℕ → List ℕ) : Except Err (List ℕ) :=
  if argv.length < 1 then Except.error Err.invalidNumberOfArguments
  else if argv.headD [] = fromFileChars then
    if argv.length ≠ 2 then Except.error Err.invalidNumberOfArguments
    else
      match file (argv.getD 1 []) with
      | none => Except.error Err.fileNotFound
      | some lines =>
        match readLines lines [] with
        | Except.error e => Except.error e
        | Except.ok vxs =>
          if vxs.length ≠ numComm then Except.error Err.invalidNumberOfCommunicators
          else Except.ok vxs
  else if argv.headD [] = randomChars then
    if argv.length ≠ 1 then Except.error Err.invalidNumberOfArguments
    else Except.ok (rand numComm)
  else Except.error Err.invalidMode

/-- Heads of all per-node event streams: the monitor's inner `for` loop
(lines 159-161) receives exactly one event from each node, in ring order
(`src_communicator = i + 1`); `none` models the monitor blocking forever on
a node that sends nothing more. -/
def roundHeads : List (List Event) → Option (List Event)
  | [] => some []
  | s :: rest =>
    match s.head?, roundHeads rest with
    | some h, some hs => some (h :: hs)
    | _, _ => none

/-- The monitor's `while is_running` loop (lines 156-171): each iteration
consumes one event per node; if any of them is `need_stop`, `is_running`
is cleared (line 164) and the loop exits after completing the round.
Returns the number of completed polling rounds. -/
def drawerLoop : ℕ → List (List Event) → Option ℕ
  | 0, _ => none
  | fuel + 1, streams =>
    match roundHeads streams with
    | none => none
    | some hs =>
      if hs.any isStop then some 1
      else (drawerLoop fuel (streams.map List.tail)).map (· + 1)

/-- The monitor's collection phase: `is_running` starts as
`number_of_communicators > 1` (line 154), so with a single communicator the
loop body never runs. -/
def drawerRun (numComm fuel : ℕ) (streams : List (List Event)) : Option ℕ :=
  if 1 < numComm then drawerLoop fuel streams else some 0

/-- Index of the ring-order predecessor among `k` cyclic positions. -/
def prevIdx (k r : ℕ) : ℕ :=
  (r + k - 1) % k

/-- Candidate of the ring-order predecessor in the cyclic candidate list `l`. -/
def prevCand (l : List ℕ) (r : ℕ) : ℕ :=
  l.getD (prevIdx l.length r) 0

/-- Round abstraction of one while-loop iteration of all still-active nodes.
Let `l` be the candidates of the active nodes in ring order.  Relays forward
messages unchanged, so the probe `one v` an active node receives at
line 191 carries the candidate of its nearest active ring predecessor
(`prevCand l r`), and the challenge `two w` received at line 205 carries the
candidate of the second-nearest (`prevCand` twice).  The node stays active,
now holding `prevCand l r`, exactly when `acn < ci and acn < data['two']`
(line 208) holds, i.e. when its predecessor's candidate is below both its
own and its pre-predecessor's. -/
def survives (l : List ℕ) (r : ℕ) : Bool :=
  decide (prevCand l r < l.getD r 0) &&
    decide (prevCand l r < l.getD (prevIdx l.length (prevIdx l.length r)) 0)

/-- Candidates of the nodes still active after one round, in ring order:
the surviving node at position `r` continues with its predecessor's
candidate (`state_data['ci'] = acn`, line 209). -/
def phaseCands (l : List ℕ) : List ℕ :=
  ((List.range l.length).filter (fun r => survives l r)).map (fun r => prevCand l r)

/-- The announcement check of line 195: an active node whose received probe
equals its own candidate (`acn == state_data['ci']`) declares the win.
In the round abstraction the received probe is the nearest active
predecessor's candidate, so this fires exactly when a node's own probe
travelled the whole ring, and the winning value is that candidate. -/
def announceVal (l : List ℕ) : Option ℕ :=
  ((List.range l.length).find? (fun r => prevCand l r == l.getD r 0)).map
    (fun r => l.getD r 0)

/-- Iterate election rounds on the active-candidate list until some node
announces; the result is the value `win` every node ends up with
(line 198 for the announcer, line 214 for everyone else, relayed around the
ring by the passive branch). -/
def electRounds : ℕ → List ℕ → Option ℕ
  | 0, _ => none
  | fuel + 1, l =>
    match announceVal l with
    | some v => some v
    | none => electRounds fuel (phaseCands l)

/-- The final value of `win`: with a single communicator it is the node's
own id (line 184, the loop never runs); otherwise it is the announced
value. -/
def electedValue (ids : List ℕ) (fuel : ℕ) : Option ℕ :=
  if ids.length ≤ 1 then ids.head? else electRounds fuel ids

/-- Final role of every node in ring order (lines 217-220): `leader` for the
node whose original id `vxs[rank - 1]` equals `win`, `loser` for all
others. -/
def finalRoles (ids : List ℕ) (fuel : ℕ) : Option (List State) :=
  (electedValue ids fuel).map
    (fun w => ids.map (fun v => if v = w then State.leader else State.loser))

/-- Number of nodes that finished as leader. -/
def countLeaders : List State → ℕ
  | [] => 0
  | s :: t => (if s = State.leader then 1 else 0) + countLeaders t

/-- The role transitions the code can actually perform: a role never
changes back, an active node may become passive, leader or loser, and a
passive node may become leader or loser. -/
def forwardTrans (a b : State) : Bool :=
  (a == b) ||
    ((a == State.active) && ((b == State.passive) || (b == State.leader) || (b == State.loser))) ||
    ((a == State.passive) && ((b == State.leader) || (b == State.loser)))

/-- The transition relation asserted by the claim: only active to passive,
active to leader and passive to loser (plus staying put). -/
def claimedTrans (a b : State) : Bool :=
  (a == b) ||
    ((a == State.active) && (b == State.passive)) ||
    ((a == State.active) && (b == State.leader)) ||
    ((a == State.passive) && (b == State.loser))

/-- Well-formed in-loop node states: the role is `active` exactly at the
receive points of the active branch (lines 191, 205, 200) and `passive`
exactly at the passive receive (line 213). -/
def loopWF (s : NodeSt) : Prop :=
  (s.st = State.active ∧
    (s.pc = PC.waitOne ∨ (∃ a, s.pc = PC.waitTwo a) ∨ s.pc = PC.waitSmallBack)) ∨
  (s.st = State.passive ∧ s.pc = PC.waitRelay)

/-- All candidate values a configuration mentions — node candidates, the
remembered `acn` of a pending challenge, and every message payload in
flight — are drawn from the original id list. -/
def valsInv (ids : List ℕ) (cfg : Config) : Prop :=
  (∀ s ∈ cfg.nodes, s.ci ∈ ids ∧ ∀ a, s.pc = PC.waitTwo a → a ∈ ids) ∧
  (∀ q ∈ cfg.queues, ∀ m ∈ q, msgVal m ∈ ids)

theorem getD_mem (l : List ℕ) (i : ℕ) (h : i < l.length) : l.getD i 0 ∈ l := by
  induction l generalizing i with
  | nil => simp at h
  | cons a t ih =>
    cases i with
    | zero => simp
    | succ j =>
      rw [List.getD_cons_succ]
      exact List.mem_cons_of_mem a (ih j (by simpa using h))

theorem getD_eq_get (l : List ℕ) (i : ℕ) (h : i < l.length) : l.getD i 0 = l.get ⟨i, h⟩ := by
  simp [List.getD_eq_getElem?_getD, List.getElem?_eq_getElem h]

theorem getD_inj (l : List ℕ) (hnd : l.Nodup) (i j : ℕ) (hi : i < l.length)
    (hj : j < l.length) (h : l.getD i 0 = l.getD j 0) : i = j := by
  induction l generalizing i j with
  | nil => simp at hi
  | cons a t ih =>
    rcases List.nodup_cons.1 hnd with ⟨ha, ht⟩
    cases i with
    | zero =>
      cases j with
      | zero => rfl
      | succ j' =>
        rw [List.getD_cons_zero, List.getD_cons_succ] at h
        exact absurd (by rw [h]; exact getD_mem t j' (by simpa using hj)) ha
    | succ i' =>
      cases j with
      | zero =>
        rw [List.getD_cons_succ, List.getD_cons_zero] at h
        exact absurd (by rw [← h]; exact getD_mem t i' (by simpa using hi)) ha
      | succ j' =>
        rw [List.getD_cons_succ, List.getD_cons_succ] at h
        have := ih ht i' j' (by simpa using hi) (by simpa using hj) h
        omega

theorem prevIdx_lt (k r : ℕ) (hk : 0 < k) : prevIdx k r < k :=
  Nat.mod_lt _ hk

theorem prevIdx_zero (k : ℕ) (hk : 0 < k) : prevIdx k 0 = k - 1 := by
  unfold prevIdx
  rw [Nat.zero_add]
  exact Nat.mod_eq_of_lt (by omega)

theorem prevIdx_succ (k s : ℕ) (h : s + 1 < k) : prevIdx k (s + 1) = s := by
  unfold prevIdx
  have h1 : s + 1 + k - 1 = s + k := by omega
  rw [h1, Nat.add_mod_right]
  exact Nat.mod_eq_of_lt (by omega)

theorem prevIdx_ne (k r : ℕ) (hk : 2 ≤ k) (hr : r < k) : prevIdx k r ≠ r := by
  cases r with
  | zero => rw [prevIdx_zero k (by omega)]; omega
  | succ s => rw [prevIdx_succ k s hr]; omega

theorem prevIdx_succ_mod (k r : ℕ) (hr : r < k) : (prevIdx k r + 1) % k = r := by
  cases r with
  | zero =>
    rw [prevIdx_zero k (by omega)]
    have h1 : k - 1 + 1 = k := by omega
    rw [h1, Nat.mod_self]
  | succ s =>
    rw [prevIdx_succ k s hr]
    exact Nat.mod_eq_of_lt hr

theorem prevIdx_of_succmod (k j : ℕ) (hj : j < k) : prevIdx k ((j + 1) % k) = j := by
  rcases Nat.lt_or_ge (j + 1) k with h | h
  · rw [Nat.mod_eq_of_lt h, prevIdx_succ k j h]
  · have hk : j + 1 = k := by omega
    rw [hk, Nat.mod_self, prevIdx_zero k (by omega)]
    omega

theorem exists_max (l : List ℕ) (h : l ≠ []) :
    ∃ i, i < l.length ∧ ∀ j, j < l.length → l.getD j 0 ≤ l.getD i 0 := by
  induction l with
  | nil => exact absurd rfl h
  | cons a t ih =>
    cases t with
    | nil =>
      refine ⟨0, by simp, ?_⟩
      intro j hj
      have : j = 0 := by simpa using hj
      simp [this]
    | cons b t' =>
      obtain ⟨i, hi, hmax⟩ := ih (by simp)
      rcases le_total a ((b :: t').getD i 0) with hle | hle
      · refine ⟨i + 1, by simpa using hi, ?_⟩
        intro j hj
        cases j with
        | zero => simpa using hle
        | succ j' =>
          rw [List.getD_cons_succ, List.getD_cons_succ]
          exact hmax j' (by simpa using hj)
      · refine ⟨0, by simp, ?_⟩
        intro j hj
        cases j with
        | zero => simp
        | succ j' =>
          rw [List.getD_cons_succ, List.getD_cons_zero]
          exact le_trans (hmax j' (by simpa using hj)) hle

theorem length_filter_lt (p : ℕ → Bool) (L : List ℕ) (x : ℕ) (hx : x ∈ L)
    (hpx : p x = false) : (L.filter p).length < L.length := by
  induction L with
  | nil => simp at hx
  | cons a t ih =>
    rcases List.mem_cons.1 hx with rfl | hxt
    · rw [List.filter_cons, hpx]
      simp only [List.length_cons]
      exact Nat.lt_succ_of_le (List.length_filter_le p t)
    · cases hpa : p a
      · rw [List.filter_cons, hpa]
        simp only [List.length_cons]
        exact Nat.lt_succ_of_le (List.length_filter_le p t)
      · rw [List.filter_cons, hpa]
        simp only [List.length_cons, if_true]
        exact Nat.succ_lt_succ (ih hxt)

theorem phaseCands_subset (l : List ℕ) : ∀ x ∈ phaseCands l, x ∈ l := by
  intro x hx
  rcases List.mem_map.1 hx with ⟨r, hr, rfl⟩
  have hrk : r < l.length := List.mem_range.1 (List.mem_filter.1 hr).1
  have hk : 0 < l.length := by omega
  exact getD_mem l _ (prevIdx_lt _ _ hk)

theorem phaseCands_nodup (l : List ℕ) (hnd : l.Nodup) : (phaseCands l).Nodup := by
  apply List.Nodup.map_on _ ((List.nodup_range l.length).filter _)
  intro r hr r' hr' h
  have hrk : r < l.length := List.mem_range.1 (List.mem_filter.1 hr).1
  have hrk' : r' < l.length := List.mem_range.1 (List.mem_filter.1 hr').1
  have hk : 0 < l.length := by omega
  have hpi : prevIdx l.length r = prevIdx l.length r' :=
    getD_inj l hnd _ _ (prevIdx_lt _ _ hk) (prevIdx_lt _ _ hk) h
  have h1 := prevIdx_succ_mod l.length r hrk
  have h2 := prevIdx_succ_mod l.length r' hrk'
  rw [hpi] at h1
  exact h1.symm.trans h2

theorem min_mem_phaseCands (l : List ℕ) (m : ℕ) (hk : 2 ≤ l.length) (hnd : l.Nodup)
    (hm : m ∈ l) (hmin : ∀ x ∈ l, m ≤ x) : m ∈ phaseCands l := by
  obtain ⟨⟨j, hj⟩, hjm⟩ := List.get_of_mem hm
  have hgd : l.getD j 0 = m := by rw [getD_eq_get l j hj]; exact hjm
  have hk0 : 0 < l.length := by omega
  have hrk : (j + 1) % l.length < l.length := Nat.mod_lt _ hk0
  have hpr : prevIdx l.length ((j + 1) % l.length) = j := prevIdx_of_succmod _ j hj
  have hrj : (j + 1) % l.length ≠ j := by
    intro hrj
    have hne := prevIdx_ne l.length ((j + 1) % l.length) hk hrk
    rw [hpr] at hne
    exact hne hrj.symm
  have hjj : prevIdx l.length j ≠ j := prevIdx_ne l.length j hk hj
  have hlt1 : m < l.getD ((j + 1) % l.length) 0 := by
    rcases lt_or_eq_of_le (hmin _ (getD_mem l _ hrk)) with h | h
    · exact h
    · exact absurd (getD_inj l hnd _ _ hj hrk (hgd.trans h)) (fun hh => hrj hh.symm)
  have hlt2 : m < l.getD (prevIdx l.length j) 0 := by
    rcases lt_or_eq_of_le (hmin _ (getD_mem l _ (prevIdx_lt _ _ hk0))) with h | h
    · exact h
    · exact absurd (getD_inj l hnd _ _ hj (prevIdx_lt _ _ hk0) (hgd.trans h))
        (fun hh => hjj hh.symm)
  have hs : survives l ((j + 1) % l.length) = true := by
    unfold survives prevCand
    rw [hpr, hgd]
    rw [Bool.and_eq_true, decide_eq_true_eq, decide_eq_true_eq]
    exact ⟨hlt1, hlt2⟩
  have hmem : (j + 1) % l.length ∈ (List.range l.length).filter (fun r => survives l r) :=
    List.mem_filter.2 ⟨List.mem_range.2 hrk, hs⟩
  have hmap : prevCand l ((j + 1) % l.length) ∈ phaseCands l :=
    List.mem_map_of_mem (fun r => prevCand l r) hmem
  have hval : prevCand l ((j + 1) % l.length) = m := by
    unfold prevCand
    rw [hpr, hgd]
  rw [hval] at hmap
  exact hmap

theorem phaseCands_length_lt (l : List ℕ) (hk : 2 ≤ l.length) :
    (phaseCands l).length < l.length := by
  unfold phaseCands
  rw [List.length_map]
  obtain ⟨i, hi, hmax⟩ := exists_max l (by intro h; rw [h] at hk; simp at hk)
  have hk0 : 0 < l.length := by omega
  have hr : (i + 1) % l.length < l.length := Nat.mod_lt _ hk0
  have hpr : prevIdx l.length ((i + 1) % l.length) = i := prevIdx_of_succmod _ i hi
  have hs : survives l ((i + 1) % l.length) = false := by
    unfold survives prevCand
    rw [hpr]
    have hnl : ¬ (l.getD i 0 < l.getD ((i + 1) % l.length) 0) := not_lt.2 (hmax _ hr)
    rw [decide_eq_false hnl]
    rfl
  have := length_filter_lt (fun r => survives l r) (List.range l.length) _
    (List.mem_range.2 hr) hs
  simpa using this

theorem announceVal_none (l : List ℕ) (hk : 2 ≤ l.length) (hnd : l.Nodup) :
    announceVal l = none := by
  unfold announceVal
  have hfind : (List.range l.length).find? (fun r => prevCand l r == l.getD r 0) = none := by
    rw [List.find?_eq_none]
    intro r hr
    have hrk : r < l.length := List.mem_range.1 hr
    have hk0 : 0 < l.length := by omega
    simp only [beq_iff_eq]
    intro h
    have hidx : prevIdx l.length r = r :=
      getD_inj l hnd _ _ (prevIdx_lt _ _ hk0) hrk h
    exact prevIdx_ne l.length r hk hrk hidx
  rw [hfind]
  rfl

theorem announceVal_singleton (a : ℕ) : announceVal [a] = some a := by
  unfold announceVal
  rw [show List.range [a].length = [0] from rfl]
  have hp : (prevCand [a] 0 == [a].getD 0 0) = true := by
    have h1 : prevCand [a] 0 = a := rfl
    have h2 : [a].getD 0 0 = a := rfl
    rw [h1, h2, beq_self_eq_true]
  simp only [List.find?]
  rw [hp]
  rfl

theorem electRounds_min : ∀ (fuel : ℕ) (l : List ℕ) (m : ℕ), l.Nodup → m ∈ l →
    (∀ x ∈ l, m ≤ x) → l.length ≤ fuel → electRounds fuel l = some m := by
  intro fuel
  induction fuel with
  | zero =>
    intro l m _ hm _ hlen
    have : l = [] := List.eq_nil_of_length_eq_zero (by omega)
    subst this
    simp at hm
  | succ f ih =>
    intro l m hnd hm hmin hlen
    by_cases hk : 2 ≤ l.length
    · have hnone := announceVal_none l hk hnd
      show (match announceVal l with
            | some v => some v
            | none => electRounds f (phaseCands l)) = some m
      rw [hnone]
      exact ih (phaseCands l) m (phaseCands_nodup l hnd)
        (min_mem_phaseCands l m hk hnd hm hmin)
        (fun x hx => hmin x (phaseCands_subset l x hx))
        (by have := phaseCands_length_lt l hk; omega)
    · obtain ⟨a, rfl⟩ : ∃ a, l = [a] := by
        cases l with
        | nil => simp at hm
        | cons a t =>
          cases t with
          | nil => exact ⟨a, rfl⟩
          | cons b t' => exact absurd (by simp) hk
      obtain rfl : m = a := List.mem_singleton.1 hm
      show (match announceVal [m] with
            | some v => some v
            | none => electRounds f (phaseCands [m])) = some m
      rw [announceVal_singleton m]

theorem electedValue_min (ids : List ℕ) (m fuel : ℕ) (hnd : ids.Nodup) (hm : m ∈ ids)
    (hmin : ∀ x ∈ ids, m ≤ x) (hfuel : ids.length ≤ fuel) :
    electedValue ids fuel = some m := by
  unfold electedValue
  split
  · next h =>
    obtain ⟨a, rfl⟩ : ∃ a, ids = [a] := by
      cases ids with
      | nil => simp at hm
      | cons a t =>
        cases t with
        | nil => exact ⟨a, rfl⟩
        | cons b t' => simp at h
    obtain rfl : m = a := List.mem_singleton.1 hm
    rfl
  · exact electRounds_min fuel ids m hnd hm hmin hfuel

theorem countLeaders_map_zero (t : List ℕ) (m : ℕ) (hm : m ∉ t) :
    countLeaders (t.map (fun v => if v = m then State.leader else State.loser)) = 0 := by
  induction t with
  | nil => rfl
  | cons a t' ih =>
    have ham : a ≠ m := by rintro rfl; exact hm (List.mem_cons_self a t')
    simp only [List.map_cons, countLeaders, if_neg ham]
    rw [ih (fun h => hm (List.mem_cons_of_mem a h))]
    rfl

theorem countLeaders_map_one (l : List ℕ) (m : ℕ) (hnd : l.Nodup) (hm : m ∈ l) :
    countLeaders (l.map (fun v => if v = m then State.leader else State.loser)) = 1 := by
  induction l with
  | nil => simp at hm
  | cons a t ih =>
    rcases List.nodup_cons.1 hnd with ⟨ha, ht⟩
    rcases List.mem_cons.1 hm with rfl | hmt
    · simp only [List.map_cons, countLeaders, if_pos rfl]
      rw [countLeaders_map_zero t m ha]
      simp
    · have ham : a ≠ m := by rintro rfl; exact ha hmt
      simp only [List.map_cons, countLeaders, if_neg ham]
      rw [ih ht hmt]
      simp

set_option maxHeartbeats 1000000 in
theorem nodeRecv_vals (ids : List ℕ) (s : NodeSt) (m : Msg)
    (h1 : s.ci ∈ ids) (h2 : ∀ a, s.pc = PC.waitTwo a → a ∈ ids) (hm : msgVal m ∈ ids) :
    (nodeRecv s m).1.ci ∈ ids ∧ (∀ a, (nodeRecv s m).1.pc = PC.waitTwo a → a ∈ ids) ∧
    ∀ m' ∈ (nodeRecv s m).2, msgVal m' ∈ ids := by
  obtain ⟨ci, st, win, own, pc, ev⟩ := s
  simp only at h1 h2
  cases pc <;> cases m <;>
    simp_all only [nodeRecv, msgVal] <;>
    (try split_ifs) <;>
    simp_all [msgVal, finalize]

theorem mem_getD_nil {α : Type} (l : List (List α)) (i : ℕ) (x : α)
    (hx : x ∈ l.getD i []) : ∃ q ∈ l, x ∈ q := by
  induction l generalizing i with
  | nil => simp [List.getD] at hx
  | cons a t ih =>
    cases i with
    | zero => exact ⟨a, List.mem_cons_self a t, by simpa using hx⟩
    | succ j =>
      obtain ⟨q, hq, hxq⟩ := ih j (by simpa using hx)
      exact ⟨q, List.mem_cons_of_mem a hq, hxq⟩

theorem stepAt_vals (ids : List ℕ) (cfg : Config) (i : ℕ) (h : valsInv ids cfg) :
    valsInv ids (stepAt cfg i) := by
  rcases hn : cfg.nodes.get? i with _ | s
  · have : stepAt cfg i = cfg := by unfold stepAt; rw [hn]
    rwa [this]
  rcases hq : cfg.queues.get? ((i + cfg.nodes.length - 1) % cfg.nodes.length) with _ | q
  · have : stepAt cfg i = cfg := by unfold stepAt; rw [hn, hq]
    rwa [this]
  rcases q with _ | ⟨m, q⟩
  · have : stepAt cfg i = cfg := by unfold stepAt; rw [hn, hq]
    rwa [this]
  by_cases hdone : s.pc = PC.done ∨ s.pc = PC.crashed
  · have : stepAt cfg i = cfg := by unfold stepAt; rw [hn, hq]; exact if_pos hdone
    rwa [this]
  have hstep : stepAt cfg i =
      { nodes := cfg.nodes.set i (nodeRecv s m).1,
        queues := (cfg.queues.set ((i + cfg.nodes.length - 1) % cfg.nodes.length) q).set i
          ((cfg.queues.set ((i + cfg.nodes.length - 1) % cfg.nodes.length) q).getD i []
            ++ (nodeRecv s m).2) } := by
    unfold stepAt; rw [hn, hq]; exact if_neg hdone
  rw [hstep]
  have hs := h.1 s (List.get?_mem hn)
  have hmm : msgVal m ∈ ids := h.2 _ (List.get?_mem hq) m (List.mem_cons_self m q)
  have hrec := nodeRecv_vals ids s m hs.1 hs.2 hmm
  constructor
  · intro t ht
    rcases List.mem_or_eq_of_mem_set ht with htm | rfl
    · exact h.1 t htm
    · exact ⟨hrec.1, hrec.2.1⟩
  · intro qq hqq mm hmm2
    rcases List.mem_or_eq_of_mem_set hqq with hq1 | rfl
    · rcases List.mem_or_eq_of_mem_set hq1 with hq2 | rfl
      · exact h.2 qq hq2 mm hmm2
      · exact h.2 _ (List.get?_mem hq) mm (List.mem_cons_of_mem m hmm2)
    · rcases List.mem_append.1 hmm2 with hmm3 | hmm3
      · obtain ⟨q0, hq0, hmmq0⟩ := mem_getD_nil _ _ _ hmm3
        rcases List.mem_or_eq_of_mem_set hq0 with hq2 | rfl
        · exact h.2 q0 hq2 mm hmmq0
        · exact h.2 _ (List.get?_mem hq) mm (List.mem_cons_of_mem m hmmq0)
      · exact hrec.2.2 mm hmm3

theorem foldl_stepAt_vals (ids : List ℕ) (L : List ℕ) (cfg : Config) (h : valsInv ids cfg) :
    valsInv ids (L.foldl stepAt cfg) := by
  induction L generalizing cfg with
  | nil => exact h
  | cons a t ih => exact ih _ (stepAt_vals ids cfg a h)

theorem runSweeps_vals (ids : List ℕ) (fuel : ℕ) (cfg : Config) (h : valsInv ids cfg) :
    valsInv ids (runSweeps fuel cfg) := by
  induction fuel generalizing cfg with
  | zero => exact h
  | succ f ih => exact ih _ (foldl_stepAt_vals ids _ cfg h)

theorem initConfig_vals (ids : List ℕ) : valsInv ids (initConfig ids) := by
  constructor
  · intro s hs
    rcases List.mem_map.1 hs with ⟨v, hv, rfl⟩
    unfold initNode
    split
    · exact ⟨hv, by intro a ha; simp at ha⟩
    · exact ⟨hv, by intro a ha; simp at ha⟩
  · intro q hq m hm
    rcases List.mem_map.1 hq with ⟨v, hv, rfl⟩
    split at hm
    · simp at hm
    · simp at hm
      simp [hm, msgVal, hv]

theorem runAsync_ci_mem (ids : List ℕ) (fuel : ℕ) :
    ∀ s ∈ (runAsync ids fuel).nodes, s.ci ∈ ids :=
  fun s hs => ((runSweeps_vals ids fuel _ (initConfig_vals ids)).1 s hs).1

theorem runAsync_ci_all (ids : List ℕ) (fuel : ℕ) :
    ((runAsync ids fuel).nodes.all (fun t => decide (t.ci ∈ ids))) = true := by
  rw [List.all_eq_true]
  intro t ht
  rw [decide_eq_true_eq]
  exact runAsync_ci_mem ids fuel t ht

theorem readLines_cons_gate (line : List Char) (rest : List (List Char)) (acc : List ℕ)
    (h : pyIsDecimal (lineInit line) = false) :
    readLines (line :: rest) acc = Except.error (Err.ciIsNotAnInt (lineInit line)) := by
  unfold readLines
  rw [if_pos h]

theorem readLines_cons_none (line : List Char) (rest : List (List Char)) (acc : List ℕ)
    (hg : pyIsDecimal (lineInit line) = true) (h : pyInt line = none) :
    readLines (line :: rest) acc = Except.error Err.valueError := by
  unfold readLines
  rw [if_neg (by simp [hg]), h]

theorem readLines_cons_dup (line : List Char) (rest : List (List Char)) (acc : List ℕ) (ci : ℕ)
    (hg : pyIsDecimal (lineInit line) = true) (h : pyInt line = some ci) (hd : ci ∈ acc) :
    readLines (line :: rest) acc = Except.error (Err.ciDuplication ci) := by
  unfold readLines
  rw [if_neg (by simp [hg]), h]
  dsimp only
  rw [if_pos hd]

theorem readLines_cons_ok (line : List Char) (rest : List (List Char)) (acc : List ℕ) (ci : ℕ)
    (hg : pyIsDecimal (lineInit line) = true) (h : pyInt line = some ci) (hd : ci ∉ acc) :
    readLines (line :: rest) acc = readLines rest (acc ++ [ci]) := by
  conv_lhs => unfold readLines
  rw [if_neg (by simp [hg]), h]
  dsimp only
  rw [if_neg hd]

theorem readLines_ok_facts : ∀ (lines : List (List Char)) (acc vxs : List ℕ),
    readLines lines acc = Except.ok vxs → acc.Nodup →
    vxs.Nodup ∧ (∀ line ∈ lines, pyIsDecimal (lineInit line) = true) ∧
    (∀ line ∈ lines, pyInt line ≠ none) ∧ vxs.length = acc.length + lines.length := by
  intro lines
  induction lines with
  | nil =>
    intro acc vxs h hnd
    injection h with h
    subst h
    exact ⟨hnd, by simp, by simp, by simp⟩
  | cons line rest ih =>
    intro acc vxs h hnd
    unfold readLines at h
    by_cases hgate : pyIsDecimal (lineInit line) = false
    · rw [if_pos hgate] at h
      cases h
    · rw [if_neg hgate] at h
      have hgate' : pyIsDecimal (lineInit line) = true := by
        cases hb : pyIsDecimal (lineInit line)
        · exact absurd hb hgate
        · rfl
      rcases hint : pyInt line with _ | ci
      · rw [hint] at h
        cases h
      · rw [hint] at h
        dsimp only at h
        by_cases hdup : ci ∈ acc
        · rw [if_pos hdup] at h
          cases h
        · rw [if_neg hdup] at h
          have hacc : (acc ++ [ci]).Nodup := by
            rw [List.nodup_append]
            refine ⟨hnd, by simp, ?_⟩
            intro a ha hb
            rw [List.mem_singleton.1 hb] at ha
            exact hdup ha
          obtain ⟨h1, h2, h3, h4⟩ := ih (acc ++ [ci]) vxs h hacc
          refine ⟨h1, ?_, ?_, ?_⟩
          · intro l hl
            rcases List.mem_cons.1 hl with rfl | hl'
            · exact hgate'
            · exact h2 l hl'
          · intro l hl
            rcases List.mem_cons.1 hl with rfl | hl'
            · rw [hint]; simp
            · exact h3 l hl'
          · simp only [List.length_append, List.length_singleton] at h4
            simp only [List.length_cons]
            omega

theorem readLines_append : ∀ (l1 l2 : List (List Char)) (acc : List ℕ),
    readLines (l1 ++ l2) acc =
      (match readLines l1 acc with
       | Except.ok acc' => readLines l2 acc'
       | Except.error e => Except.error e) := by
  intro l1
  induction l1 with
  | nil => intro l2 acc; rfl
  | cons line rest ih =>
    intro l2 acc
    have hc : (line :: rest) ++ l2 = line :: (rest ++ l2) := rfl
    by_cases hgate : pyIsDecimal (lineInit line) = false
    · rw [hc, readLines_cons_gate _ _ _ hgate, readLines_cons_gate _ _ _ hgate]
    · have hg : pyIsDecimal (lineInit line) = true := by
        cases hb : pyIsDecimal (lineInit line)
        · exact absurd hb hgate
        · rfl
      rcases hint : pyInt line with _ | ci
      · rw [hc, readLines_cons_none _ _ _ hg hint, readLines_cons_none _ _ _ hg hint]
      · by_cases hdup : ci ∈ acc
        · rw [hc, readLines_cons_dup _ _ _ _ hg hint hdup,
            readLines_cons_dup _ _ _ _ hg hint hdup]
        · rw [hc, readLines_cons_ok _ _ _ _ hg hint hdup,
            readLines_cons_ok _ _ _ _ hg hint hdup]
          exact ih l2 (acc ++ [ci])

theorem readLines_error_gate : ∀ (lines : List (List Char)) (acc : List ℕ) (t : List Char),
    readLines lines acc = Except.error (Err.ciIsNotAnInt t) → pyIsDecimal t = false := by
  intro lines
  induction lines with
  | nil =>
    intro acc t h
    cases h
  | cons line rest ih =>
    intro acc t h
    by_cases hgate : pyIsDecimal (lineInit line) = false
    · rw [readLines_cons_gate _ _ _ hgate] at h
      injection h with h
      injection h with h
      rw [← h]
      exact hgate
    · have hg : pyIsDecimal (lineInit line) = true := by
        cases hb : pyIsDecimal (lineInit line)
        · exact absurd hb hgate
        · rfl
      rcases hint : pyInt line with _ | ci
      · rw [readLines_cons_none _ _ _ hg hint] at h
        injection h with h
        cases h
      · by_cases hdup : ci ∈ acc
        · rw [readLines_cons_dup _ _ _ _ hg hint hdup] at h
          injection h with h
          cases h
        · rw [readLines_cons_ok _ _ _ _ hg hint hdup] at h
          exact ih _ t h

theorem getVxs_ok_facts (numComm : ℕ) (file : List Char → Option (List (List Char)))
    (argv : List (List Char)) (rand : ℕ → List ℕ) (vxs : List ℕ)
    (h : getVxs numComm file argv rand = Except.ok vxs) :
    (argv = [randomChars] ∧ vxs = rand numComm) ∨
    (∃ p lines, argv = [fromFileChars, p] ∧ file p = some lines ∧
      vxs.Nodup ∧ vxs.length = numComm ∧ vxs.length = lines.length ∧
      (∀ line ∈ lines, pyIsDecimal (lineInit line) = true) ∧
      (∀ line ∈ lines, pyInt line ≠ none)) := by
  unfold getVxs at h
  by_cases h0 : argv.length < 1
  · rw [if_pos h0] at h
    cases h
  rw [if_neg h0] at h
  by_cases hf : argv.headD [] = fromFileChars
  · rw [if_pos hf] at h
    by_cases h2 : argv.length ≠ 2
    · rw [if_pos h2] at h
      cases h
    rw [if_neg h2] at h
    rcases hfile : file (argv.getD 1 []) with _ | lines
    · rw [hfile] at h
      cases h
    rw [hfile] at h
    dsimp only at h
    rcases hrl : readLines lines [] with e | vl
    · rw [hrl] at h
      cases h
    rw [hrl] at h
    dsimp only at h
    by_cases hlen : vl.length ≠ numComm
    · rw [if_pos hlen] at h
      cases h
    rw [if_neg hlen] at h
    injection h with h
    subst h
    obtain ⟨a, b, rfl⟩ : ∃ a b, argv = [a, b] := by
      cases argv with
      | nil => simp at h0
      | cons a t =>
        cases t with
        | nil => simp at h2
        | cons b t' =>
          cases t' with
          | nil => exact ⟨a, b, rfl⟩
          | cons c t'' => simp at h2
    simp only [List.headD_cons] at hf
    subst hf
    obtain ⟨hnd, hg, hpi, hl⟩ := readLines_ok_facts lines [] vl hrl (by simp)
    right
    refine ⟨b, lines, rfl, by simpa using hfile, hnd, by omega, by simpa using hl, hg, hpi⟩
  by_cases hr : argv.headD [] = randomChars
  · rw [if_neg hf, if_pos hr] at h
    by_cases h1 : argv.length ≠ 1
    · rw [if_pos h1] at h
      cases h
    rw [if_neg h1] at h
    injection h with h
    obtain ⟨a, rfl⟩ : ∃ a, argv = [a] := by
      cases argv with
      | nil => simp at h0
      | cons a t =>
        cases t with
        | nil => exact ⟨a, rfl⟩
        | cons b t' => simp at h1
    simp only [List.headD_cons] at hr
    subst hr
    exact Or.inl ⟨rfl, h.symm⟩
  · rw [if_neg hf, if_neg hr] at h
    cases h

theorem headD_eq_getD_zero (s : List Event) (hs : s ≠ []) (d : Event) :
    s.headD d = s.getD 0 d := by
  cases s with
  | nil => exact absurd rfl hs
  | cons a t => rfl

theorem getD_tail_eq (s : List Event) (j : ℕ) (d : Event) :
    s.tail.getD j d = s.getD (j + 1) d := by
  cases s with
  | nil => rfl
  | cons a t => rfl

theorem any_eq_false_of (l : List Event) (p : Event → Bool)
    (h : ∀ x ∈ l, p x = false) : l.any p = false := by
  induction l with
  | nil => rfl
  | cons a t ih =>
    rw [List.any_cons, h a (List.mem_cons_self a t),
      ih (fun x hx => h x (List.mem_cons_of_mem a hx))]
    rfl

theorem roundHeads_some (streams : List (List Event)) (h : ∀ s ∈ streams, s ≠ []) :
    roundHeads streams = some (streams.map (fun s => s.headD Event.needStop)) := by
  induction streams with
  | nil => rfl
  | cons a t ih =>
    have ha : a ≠ [] := h a (List.mem_cons_self a t)
    have hh : a.head? = some (a.headD Event.needStop) := by
      cases a with
      | nil => exact absurd rfl ha
      | cons x a' => rfl
    show (match a.head?, roundHeads t with
          | some h, some hs => some (h :: hs)
          | _, _ => none) = _
    rw [hh, ih (fun s hs => h s (List.mem_cons_of_mem a hs))]
    rfl

theorem drawerLoop_exact : ∀ (fuel R : ℕ) (streams : List (List Event)),
    1 ≤ R → R ≤ fuel → streams ≠ [] →
    (∀ s ∈ streams, s.length = R) →
    (∀ s ∈ streams, ∀ j, j < R - 1 → isStop (s.getD j Event.needStop) = false) →
    (∀ s ∈ streams, isStop (s.getD (R - 1) Event.needStop) = true) →
    drawerLoop fuel streams = some R := by
  intro fuel
  induction fuel with
  | zero =>
    intro R streams hR hfuel
    omega
  | succ f ih =>
    intro R streams hR hfuel hne hlen hpre hlast
    have hne' : ∀ s ∈ streams, s ≠ [] := by
      intro s hs h
      have := hlen s hs
      rw [h] at this
      simp at this
      omega
    show (match roundHeads streams with
          | none => none
          | some hs =>
            if hs.any isStop then some 1
            else (drawerLoop f (streams.map List.tail)).map (· + 1)) = some R
    rw [roundHeads_some streams hne']
    dsimp only
    by_cases hR1 : R = 1
    · subst hR1
      have hall : (streams.map (fun s => s.headD Event.needStop)).any isStop = true := by
        rcases streams with _ | ⟨s0, rest⟩
        · exact absurd rfl hne
        · apply List.any_eq_true.2
          refine ⟨s0.headD Event.needStop, List.mem_map_of_mem _ (List.mem_cons_self s0 rest), ?_⟩
          have h0 := hlast s0 (List.mem_cons_self s0 rest)
          rwa [headD_eq_getD_zero s0 (hne' s0 (List.mem_cons_self s0 rest))]
      rw [hall]
      rfl
    · have hfalse : (streams.map (fun s => s.headD Event.needStop)).any isStop = false := by
        apply any_eq_false_of
        intro x hx
        rcases List.mem_map.1 hx with ⟨s, hs, rfl⟩
        have := hpre s hs 0 (by omega)
        rwa [headD_eq_getD_zero s (hne' s hs)]
      rw [hfalse]
      have hrec : drawerLoop f (streams.map List.tail) = some (R - 1) := by
        apply ih (R - 1) (streams.map List.tail) (by omega) (by omega)
        · simp [hne]
        · intro s hs
          rcases List.mem_map.1 hs with ⟨s0, hs0, rfl⟩
          rw [List.length_tail, hlen s0 hs0]
        · intro s hs j hj
          rcases List.mem_map.1 hs with ⟨s0, hs0, rfl⟩
          rw [getD_tail_eq]
          exact hpre s0 hs0 (j + 1) (by omega)
        · intro s hs
          rcases List.mem_map.1 hs with ⟨s0, hs0, rfl⟩
          rw [getD_tail_eq]
          have : R - 1 - 1 + 1 = R - 1 := by omega
          rw [this]
          exact hlast s0 hs0
      show (if (false : Bool) then some 1
            else (drawerLoop f (streams.map List.tail)).map (· + 1)) = some R
      rw [hrec]
      simp
      omega

theorem runSweeps_fix (c : Config) (h : sweep c = c) : ∀ fuel, runSweeps fuel c = c := by
  intro fuel
  induction fuel with
  | zero => rfl
  | succ f ih =>
    show runSweeps f (sweep c) = c
    rw [h]
    exact ih

/-- C1 (amended): for every ring of `N ≥ 1` pairwise-distinct ids run to
completion, exactly one node finishes with role `leader`, that node is the
one holding the MINIMUM id `m`, and every other node finishes with role
`loser`; in particular for ids `[5, 3, 9, 1]` the leader holds `1`, and for
ids `[1, 2]` the leader holds `1`.  The general part is proved on the round
abstraction (`finalRoles`), the two scenarios on the message-passing
executor (`runAsync`). -/
theorem election_exactly_one_leader_min (ids : List ℕ) (m fuel : ℕ) (hnd : ids.Nodup)
    (hm : m ∈ ids) (hmin : ∀ x ∈ ids, m ≤ x) (hfuel : ids.length ≤ fuel) :
    finalRoles ids fuel =
      some (ids.map (fun v => if v = m then State.leader else State.loser)) ∧
    countLeaders (ids.map (fun v => if v = m then State.leader else State.loser)) = 1 ∧
    scenarioA.nodes.map (fun s => (s.ownId, s.st)) =
      [(5, State.loser), (3, State.loser), (9, State.loser), (1, State.leader)] ∧
    scenarioB.nodes.map (fun s => (s.ownId, s.st)) =
      [(1, State.leader), (2, State.loser)] := by
  refine ⟨?_, countLeaders_map_one ids m hnd hm, rfl, rfl⟩
  unfold finalRoles
  rw [electedValue_min ids m fuel hnd hm hmin hfuel]
  rfl

/-- C1 counterexample: in the completed run on ids `[5, 3, 9, 1]` the node
holding the maximum id `9` ends as `loser` and the leader is the node
holding `1`, so the final roles are not the ones the claim predicts
(leader at the position of the maximum). -/
theorem election_leader_not_max_cex :
    scenarioA.nodes.map (fun s => (s.ownId, s.st)) =
      [(5, State.loser), (3, State.loser), (9, State.loser), (1, State.leader)] ∧
    scenarioA.nodes.map (fun s => s.st) ≠
      [State.loser, State.loser, State.leader, State.loser] :=
  ⟨rfl, by decide⟩

/-- Witness for C1 at ids `[5, 3, 9, 1]`, minimum `1`, fuel `4`. -/
theorem election_exactly_one_leader_min_witness :
    finalRoles [5, 3, 9, 1] 4 =
      some ([5, 3, 9, 1].map (fun v => if v = 1 then State.leader else State.loser)) ∧
    countLeaders ([5, 3, 9, 1].map (fun v => if v = 1 then State.leader else State.loser)) = 1 ∧
    scenarioA.nodes.map (fun s => (s.ownId, s.st)) =
      [(5, State.loser), (3, State.loser), (9, State.loser), (1, State.leader)] ∧
    scenarioB.nodes.map (fun s => (s.ownId, s.st)) =
      [(1, State.leader), (2, State.loser)] :=
  election_exactly_one_leader_min [5, 3, 9, 1] 1 4 (by decide) (by decide) (by decide)
    (by decide)

/-- C2: an active node blocked at line 191 that receives a probe `one v`
with `v ≠ ci` forwards the challenge `two v` to its successor and blocks
for the next message (line 205); on the following challenge `two w` it
adopts `candidate = v` and stays active exactly when `v < ci ∧ v < w`
(lines 208-209), and otherwise becomes passive keeping its candidate
(line 211). -/
theorem active_challenge_round (s : NodeSt) (v w : ℕ) (hpc : s.pc = PC.waitOne)
    (hv : v ≠ s.ci) :
    nodeRecv s (Msg.one v) =
      ({ s with pc := PC.waitTwo v, events := s.events ++ [Event.stat s.ci s.st] },
       [Msg.two v]) ∧
    ((v < s.ci ∧ v < w) →
      nodeRecv { s with pc := PC.waitTwo v, events := s.events ++ [Event.stat s.ci s.st] }
          (Msg.two w) =
        ({ s with ci := v, pc := PC.waitOne,
                  events := (s.events ++ [Event.stat s.ci s.st]) ++ [Event.stat v s.st] },
         [Msg.one v])) ∧
    (¬(v < s.ci ∧ v < w) →
      nodeRecv { s with pc := PC.waitTwo v, events := s.events ++ [Event.stat s.ci s.st] }
          (Msg.two w) =
        ({ s with st := State.passive, pc := PC.waitRelay,
                  events := s.events ++ [Event.stat s.ci s.st] }, [])) := by
  obtain ⟨ci, st, win, own, pc, ev⟩ := s
  simp only at hpc hv
  subst hpc
  refine ⟨?_, ?_, ?_⟩
  · simp [nodeRecv, hv]
  · intro h
    simp [nodeRecv, h]
  · intro h
    simp [nodeRecv, h]

/-- Witness for C2 at an active node with candidate 5 receiving probe 3 and
challenge 9. -/
theorem active_challenge_round_witness :
    nodeRecv { ci := 5, st := State.active, win := -1, ownId := 5, pc := PC.waitOne,
               events := [] } (Msg.one 3) =
      ({ ci := 5, st := State.active, win := -1, ownId := 5, pc := PC.waitTwo 3,
         events := [Event.stat 5 State.active] }, [Msg.two 3]) ∧
    ((3 < 5 ∧ 3 < 9) →
      nodeRecv { ci := 5, st := State.active, win := -1, ownId := 5, pc := PC.waitTwo 3,
                 events := [Event.stat 5 State.active] } (Msg.two 9) =
        ({ ci := 3, st := State.active, win := -1, ownId := 5, pc := PC.waitOne,
           events := [Event.stat 5 State.active, Event.stat 3 State.active] },
         [Msg.one 3])) ∧
    (¬(3 < 5 ∧ 3 < 9) →
      nodeRecv { ci := 5, st := State.active, win := -1, ownId := 5, pc := PC.waitTwo 3,
                 events := [Event.stat 5 State.active] } (Msg.two 9) =
        ({ ci := 5, st := State.passive, win := -1, ownId := 5, pc := PC.waitRelay,
           events := [Event.stat 5 State.active] }, [])) :=
  active_challenge_round
    { ci := 5, st := State.active, win := -1, ownId := 5, pc := PC.waitOne, events := [] }
    3 9 rfl (by decide)

/-- C4: a passive node blocked at line 213 with `win = -1` forwards every
message it receives unchanged — same tag, same payload — to its successor
(line 215); if the message is the announcement `small v` it records
`win = v` (line 214) and its loop terminates after this single relay
(`while win == -1` fails, lines 187, 217-222), while any other message
leaves it passive with `win = -1` and its candidate untouched. -/
theorem passive_relay_exact (s : NodeSt) (m : Msg) (hpc : s.pc = PC.waitRelay)
    (hwin : s.win = -1) :
    (nodeRecv s m).2 = [m] ∧
    (nodeRecv s m).1.ci = s.ci ∧
    (∀ v, m = Msg.small v →
      (nodeRecv s m).1.pc = PC.done ∧ (nodeRecv s m).1.win = (v : ℤ) ∧
      ((nodeRecv s m).1.st = State.leader ∨ (nodeRecv s m).1.st = State.loser)) ∧
    ((∀ v, m ≠ Msg.small v) →
      (nodeRecv s m).1.pc = PC.waitRelay ∧ (nodeRecv s m).1.win = -1 ∧
      (nodeRecv s m).1.st = s.st ∧ (nodeRecv s m).1.events =
        s.events ++ [Event.stat s.ci s.st]) := by
  obtain ⟨ci, st, win, own, pc, ev⟩ := s
  simp only at hpc hwin
  subst hpc
  subst hwin
  cases m with
  | one v =>
    refine ⟨by simp [nodeRecv], by simp [nodeRecv], ?_, ?_⟩
    · intro v' hv'
      cases hv'
    · intro _
      simp [nodeRecv]
  | two v =>
    refine ⟨by simp [nodeRecv], by simp [nodeRecv], ?_, ?_⟩
    · intro v' hv'
      cases hv'
    · intro _
      simp [nodeRecv]
  | small v =>
    have hv : ((v : ℤ)) ≠ -1 := by omega
    refine ⟨by simp [nodeRecv, hv], by simp [nodeRecv, hv, finalize], ?_, ?_⟩
    · intro v' hv'
      injection hv' with hv'
      subst hv'
      refine ⟨by simp [nodeRecv, hv, finalize], by simp [nodeRecv, hv, finalize], ?_⟩
      by_cases hw : ((v : ℤ)) = (own : ℤ)
      · exact Or.inl (by simp [nodeRecv, hv, finalize, hw])
      · exact Or.inr (by simp [nodeRecv, hv, finalize, hw])
    · intro hne
      exact absurd rfl (hne v)

/-- Witness for C4 at a passive node with candidate 3 relaying the
announcement `small 1`. -/
theorem passive_relay_exact_witness :
    (nodeRecv { ci := 3, st := State.passive, win := -1, ownId := 3, pc := PC.waitRelay,
                events := [] } (Msg.small 1)).2 = [Msg.small 1] ∧
    (nodeRecv { ci := 3, st := State.passive, win := -1, ownId := 3, pc := PC.waitRelay,
                events := [] } (Msg.small 1)).1.ci = 3 ∧
    (∀ v, Msg.small 1 = Msg.small v →
      (nodeRecv { ci := 3, st := State.passive, win := -1, ownId := 3, pc := PC.waitRelay,
                  events := [] } (Msg.small 1)).1.pc = PC.done ∧
      (nodeRecv { ci := 3, st := State.passive, win := -1, ownId := 3, pc := PC.waitRelay,
                  events := [] } (Msg.small 1)).1.win = (v : ℤ) ∧
      ((nodeRecv { ci := 3, st := State.passive, win := -1, ownId := 3, pc := PC.waitRelay,
                   events := [] } (Msg.small 1)).1.st = State.leader ∨
       (nodeRecv { ci := 3, st := State.passive, win := -1, ownId := 3, pc := PC.waitRelay,
                   events := [] } (Msg.small 1)).1.st = State.loser)) ∧
    ((∀ v, Msg.small 1 ≠ Msg.small v) →
      (nodeRecv { ci := 3, st := State.passive, win := -1, ownId := 3, pc := PC.waitRelay,
                  events := [] } (Msg.small 1)).1.pc = PC.waitRelay ∧
      (nodeRecv { ci := 3, st := State.passive, win := -1, ownId := 3, pc := PC.waitRelay,
                  events := [] } (Msg.small 1)).1.win = -1 ∧
      (nodeRecv { ci := 3, st := State.passive, win := -1, ownId := 3, pc := PC.waitRelay,
                  events := [] } (Msg.small 1)).1.st = State.passive ∧
      (nodeRecv { ci := 3, st := State.passive, win := -1, ownId := 3, pc := PC.waitRelay,
                  events := [] } (Msg.small 1)).1.events =
        [] ++ [Event.stat 3 State.passive]) :=
  passive_relay_exact
    { ci := 3, st := State.passive, win := -1, ownId := 3, pc := PC.waitRelay, events := [] }
    (Msg.small 1) rfl rfl

/-- C6: for every ring of pairwise-distinct ids the election reaches a
definite outcome — every node gets a terminal role `leader` or `loser` —
after finitely many rounds (the active set strictly shrinks, so `N` rounds
of fuel suffice); concretely, the executor run of scenario A reaches
`done` at every node within 24 sweeps and the monitor loop on its event
streams terminates after exactly 7 polling rounds. -/
theorem protocol_terminates (ids : List ℕ) (m fuel : ℕ) (hnd : ids.Nodup) (hm : m ∈ ids)
    (hmin : ∀ x ∈ ids, m ≤ x) (hfuel : ids.length ≤ fuel) :
    (∃ roles, finalRoles ids fuel = some roles ∧
      ∀ ρ ∈ roles, ρ = State.leader ∨ ρ = State.loser) ∧
    scenarioA.nodes.all (fun s => decide (s.pc = PC.done)) = true ∧
    drawerRun 4 7 (scenarioA.nodes.map (fun s => s.events)) = some 7 := by
  refine ⟨?_, rfl, rfl⟩
  refine ⟨ids.map (fun v => if v = m then State.leader else State.loser), ?_, ?_⟩
  · unfold finalRoles
    rw [electedValue_min ids m fuel hnd hm hmin hfuel]
    rfl
  · intro x hx
    rcases List.mem_map.1 hx with ⟨v, hv, rfl⟩
    by_cases h : v = m
    · simp [h]
    · simp [h]

/-- Witness for C6 at ids `[1, 2]`, minimum `1`, fuel `2`. -/
theorem protocol_terminates_witness :
    (∃ roles, finalRoles [1, 2] 2 = some roles ∧
      ∀ ρ ∈ roles, ρ = State.leader ∨ ρ = State.loser) ∧
    scenarioA.nodes.all (fun s => decide (s.pc = PC.done)) = true ∧
    drawerRun 4 7 (scenarioA.nodes.map (fun s => s.events)) = some 7 :=
  protocol_terminates [1, 2] 1 2 (by decide) (by decide) (by decide) (by decide)

/-- C7: with a single communicator (`number_of_communicators = 1`), `win`
is initialized to the node's own id (line 184), the while loop never runs,
and the node immediately finalizes as `leader` (lines 217-218) having sent
and received no protocol message: after any number of sweeps the
configuration still has an empty queue and the only status event ever
emitted is the final `need_stop`. -/
theorem single_node_immediate_leader (x fuel : ℕ) :
    runAsync [x] fuel =
      { nodes := [{ ci := x, st := State.leader, win := (x : ℤ), ownId := x,
                    pc := PC.done, events := [Event.needStop] }],
        queues := [[]] } := by
  have hfix : sweep
      { nodes := [{ ci := x, st := State.leader, win := (x : ℤ), ownId := x,
                    pc := PC.done, events := [Event.needStop] }],
        queues := ([[]] : List (List Msg)) } =
      { nodes := [{ ci := x, st := State.leader, win := (x : ℤ), ownId := x,
                    pc := PC.done, events := [Event.needStop] }],
        queues := [[]] } := rfl
  show runSweeps fuel (initConfig [x]) = _
  have hinit : initConfig [x] =
      { nodes := [{ ci := x, st := State.leader, win := (x : ℤ), ownId := x,
                    pc := PC.done, events := [Event.needStop] }],
        queues := [[]] } := rfl
  rw [hinit]
  exact runSweeps_fix _ hfix fuel

/-- C9: `dst` and `src` (lines 85-96) realize the cyclic ring relation on
ranks 1..N: in 0-based positions `r - 1`, the successor is the next
position modulo N and the predecessor the previous position modulo N, and
the two maps are mutually inverse on 1..N. -/
theorem ring_succ_pred (n r : ℕ) (hn : 1 ≤ n) (hr1 : 1 ≤ r) (hrn : r ≤ n) :
    dst r n - 1 = ((r - 1) + 1) % n ∧
    src r n - 1 = ((r - 1) + (n - 1)) % n ∧
    src (dst r n) n = r ∧
    dst (src r n) n = r := by
  refine ⟨?_, ?_, ?_, ?_⟩
  · unfold dst
    by_cases h : r = n
    · rw [if_pos h]
      have h1 : r - 1 + 1 = n := by omega
      rw [h1, Nat.mod_self]
    · rw [if_neg h]
      have h1 : r - 1 + 1 = r := by omega
      rw [h1, Nat.mod_eq_of_lt (by omega)]
      omega
  · unfold src
    by_cases h : r = 1
    · rw [if_pos h]
      have h1 : r - 1 + (n - 1) = n - 1 := by omega
      rw [h1, Nat.mod_eq_of_lt (by omega)]
    · rw [if_neg h]
      have h1 : r - 1 + (n - 1) = (r - 2) + n := by omega
      rw [h1, Nat.add_mod_right, Nat.mod_eq_of_lt (by omega)]
      omega
  · unfold dst src
    split_ifs <;> omega
  · unfold dst src
    split_ifs <;> omega

/-- Witness for C9 at `n = 4`, `r = 4`. -/
theorem ring_succ_pred_witness :
    dst 4 4 - 1 = ((4 - 1) + 1) % 4 ∧
    src 4 4 - 1 = ((4 - 1) + (4 - 1)) % 4 ∧
    src (dst 4 4) 4 = 4 ∧
    dst (src 4 4) 4 = 4 :=
  ring_succ_pred 4 4 (by decide) (by decide) (by decide)

/-- C3 (amended): under the lockstep structure of the protocol every node
emits the same number of status events, one `need_stop` as the very last
(verified on the executor in the witness).  For a ring with more than one
node and any such family of per-node streams, the monitor collects exactly
one event per node per polling round, in ring order (the `roundHeads`
conjunct), and its loop ends exactly after the round `R` in which every
node's `need_stop` arrives — never before all `N` nodes have signalled
stop.  For a single-node ring, however, `is_running` starts as
`number_of_communicators > 1` (line 154), so the loop body never runs and
the monitor ends after zero rounds without collecting the sole node's
`need_stop` (last conjunct). -/
theorem monitor_collects_until_all_stop (streams : List (List Event)) (R fuel numComm : ℕ)
    (hcomm : 1 < numComm) (hN : streams.length = numComm) (hR : 1 ≤ R) (hfuel : R ≤ fuel)
    (hlen : ∀ s ∈ streams, s.length = R)
    (hpre : ∀ s ∈ streams, ∀ j, j < R - 1 → isStop (s.getD j Event.needStop) = false)
    (hlast : ∀ s ∈ streams, isStop (s.getD (R - 1) Event.needStop) = true) :
    drawerRun numComm fuel streams = some R ∧
    roundHeads streams = some (streams.map (fun s => s.headD Event.needStop)) ∧
    (∀ (streams1 : List (List Event)) (fuel1 : ℕ), drawerRun 1 fuel1 streams1 = some 0) := by
  have hne : streams ≠ [] := by
    intro h
    rw [h] at hN
    simp at hN
    omega
  refine ⟨?_, ?_, ?_⟩
  · unfold drawerRun
    rw [if_pos hcomm]
    exact drawerLoop_exact fuel R streams hR hfuel hne hlen hpre hlast
  · apply roundHeads_some
    intro s hs h
    have := hlen s hs
    rw [h] at this
    simp at this
    omega
  · intro streams1 fuel1
    unfold drawerRun
    rw [if_neg (by omega)]

/-- C3 counterexample: the original claim's "the Monitor's collection loop
ends exactly when every node has emitted an event with the stopped flag
set" fails at `N = 1`.  The actual single-node run (ids `[7]`) produces
exactly the event stream `[need_stop]`, yet the monitor — whose loop is
gated by `is_running = number_of_communicators > 1` (line 154) — ends
after 0 polling rounds, not after the round 1 in which the sole node's
stop would have been collected. -/
theorem monitor_skips_single_node_cex :
    (runAsync [7] 5).nodes.map (fun s => s.events) = [[Event.needStop]] ∧
    drawerRun 1 5 [[Event.needStop]] = some 0 ∧
    (some 0 : Option ℕ) ≠ some 1 :=
  ⟨rfl, rfl, by decide⟩

/-- Witness for C3 on the event streams of the completed scenario A run:
every node emits exactly 7 events with the stop flag only at the end, and
the monitor loop runs exactly 7 rounds. -/
theorem monitor_collects_until_all_stop_witness :
    drawerRun 4 7 (scenarioA.nodes.map (fun s => s.events)) = some 7 ∧
    roundHeads (scenarioA.nodes.map (fun s => s.events)) =
      some ((scenarioA.nodes.map (fun s => s.events)).map (fun s => s.headD Event.needStop)) ∧
    (∀ (streams1 : List (List Event)) (fuel1 : ℕ), drawerRun 1 fuel1 streams1 = some 0) :=
  monitor_collects_until_all_stop (scenarioA.nodes.map (fun s => s.events)) 7 7 4
    (by decide) (by decide) (by decide) (by decide) (by decide) (by decide) (by decide)

/-- C5 (amended): in every reaction of a running node — active at one of
the receives of lines 191, 205, 200, or passive at line 213 — the candidate
never increases, it changes (strictly downward) only while the role is
`active`, roles move only forward (staying put, active to
passive/leader/loser, or passive to leader/loser — never backward), and
over any whole run every candidate a node ever holds is drawn from the
original id list. -/
theorem node_state_invariants (s : NodeSt) (m : Msg) (ids : List ℕ) (fuel : ℕ)
    (hwf : loopWF s) :
    (nodeRecv s m).1.ci ≤ s.ci ∧
    ((nodeRecv s m).1.ci ≠ s.ci → s.st = State.active ∧ (nodeRecv s m).1.ci < s.ci) ∧
    forwardTrans s.st (nodeRecv s m).1.st = true ∧
    (runAsync ids fuel).nodes.all (fun t => decide (t.ci ∈ ids)) = true := by
  refine ⟨?_, ?_, ?_, runAsync_ci_all ids fuel⟩ <;>
  · obtain ⟨ci, st, win, own, pc, ev⟩ := s
    simp only [loopWF] at hwf
    rcases hwf with ⟨rfl, rfl | ⟨a, rfl⟩ | rfl⟩ | ⟨rfl, rfl⟩ <;>
      cases m <;>
      simp only [nodeRecv, forwardTrans, finalize] <;>
      (try split_ifs) <;>
      simp_all <;>
      omega

/-- C5 counterexample: the claim's transition set lacks transitions the code
performs.  In the run on ids `[1, 2]`, between sweeps 3 and 4 node 0 (one
`nodeRecv` reaction) moves `passive` to `leader` (the passive branch
records `win` and finalizes, lines 213-218) and node 1 moves `active`
directly to `loser` (the announcer finalizes after its announcement
returns), neither of which is in the claimed set
{active to passive, active to leader, passive to loser}. -/
theorem passive_to_leader_cex :
    claimedTrans State.passive State.leader = false ∧
    claimedTrans State.active State.loser = false ∧
    (runAsync [1, 2] 3).nodes.map (fun s => s.st) = [State.passive, State.active] ∧
    (runAsync [1, 2] 4).nodes.map (fun s => s.st) = [State.leader, State.loser] :=
  ⟨rfl, rfl, rfl, rfl⟩

/-- Witness for C5 at an active node with candidate 5 receiving probe 3,
ids `[1, 2]`, fuel 8. -/
theorem node_state_invariants_witness :
    (nodeRecv { ci := 5, st := State.active, win := -1, ownId := 5, pc := PC.waitOne,
                events := [] } (Msg.one 3)).1.ci ≤ 5 ∧
    ((nodeRecv { ci := 5, st := State.active, win := -1, ownId := 5, pc := PC.waitOne,
                 events := [] } (Msg.one 3)).1.ci ≠ 5 →
      State.active = State.active ∧
      (nodeRecv { ci := 5, st := State.active, win := -1, ownId := 5, pc := PC.waitOne,
                  events := [] } (Msg.one 3)).1.ci < 5) ∧
    forwardTrans State.active
      (nodeRecv { ci := 5, st := State.active, win := -1, ownId := 5, pc := PC.waitOne,
                  events := [] } (Msg.one 3)).1.st = true ∧
    (runAsync [1, 2] 8).nodes.all (fun t => decide (t.ci ∈ [1, 2])) = true :=
  node_state_invariants
    { ci := 5, st := State.active, win := -1, ownId := 5, pc := PC.waitOne, events := [] }
    (Msg.one 3) [1, 2] 8 (Or.inl ⟨rfl, Or.inl rfl⟩)

/-- C8 (amended): whenever `get_vxs` returns successfully — which is the
only way the system proceeds to `comm.bcast` and the protocol — the
configuration was valid: the mode was `random` with exactly one argument,
or the mode was `from_file` with exactly one existing path whose lines all
pass the decimality gate, all parse as ints, contain no duplicate, and
whose count equals the ring size.  Contrapositively, each of these
configuration errors (bad mode, wrong argument count, missing file,
non-integer line, duplicate id, id-count mismatch) forces an
`Except.error` outcome — a `finish` abort with a descriptive message and
non-zero exit before any protocol message is exchanged.  (A ring size below
1 on its own is NOT rejected; see the counterexample.) -/
theorem config_errors_abort_before_protocol (numComm : ℕ)
    (file : List Char → Option (List (List Char))) (argv : List (List Char))
    (rand : ℕ → List ℕ) (vxs : List ℕ)
    (h : getVxs numComm file argv rand = Except.ok vxs) :
    (argv = [randomChars] ∧ vxs = rand numComm) ∨
    (∃ p lines, argv = [fromFileChars, p] ∧ file p = some lines ∧
      vxs.Nodup ∧ vxs.length = numComm ∧ vxs.length = lines.length ∧
      (∀ line ∈ lines, pyIsDecimal (lineInit line) = true) ∧
      (∀ line ∈ lines, pyInt line ≠ none)) :=
  getVxs_ok_facts numComm file argv rand vxs h

/-- C8 counterexample: a ring size below 1 is not detected.  With zero
communicators and mode `random`, `get_vxs` succeeds (Python
`sample(range(1, 100), 0)` returns `[]`), so no configuration error is
raised for ring size 0; the run only dies later, outside the validator. -/
theorem ring_size_zero_not_detected :
    getVxs 0 (fun _ => none) [randomChars] (fun _ => []) = Except.ok [] :=
  rfl

/-- Witness for C8 on a valid two-line input file. -/
theorem config_errors_abort_before_protocol_witness :
    (([fromFileChars, ['f']] : List (List Char)) = [randomChars] ∧
      ([5, 7] : List ℕ) = (fun _ => ([] : List ℕ)) 2) ∨
    (∃ p lines, ([fromFileChars, ['f']] : List (List Char)) = [fromFileChars, p] ∧
      (fun _ => some [['5', '\n'], ['7', '\n']]) p = some lines ∧
      ([5, 7] : List ℕ).Nodup ∧ ([5, 7] : List ℕ).length = 2 ∧
      ([5, 7] : List ℕ).length = lines.length ∧
      (∀ line ∈ lines, pyIsDecimal (lineInit line) = true) ∧
      (∀ line ∈ lines, pyInt line ≠ none)) :=
  config_errors_abort_before_protocol 2 (fun _ => some [['5', '\n'], ['7', '\n']])
    [fromFileChars, ['f']] (fun _ => []) [5, 7] rfl

/-- C10: the validator checks decimality of `line[:-1]` while storing
`int(line)` (lines 122-125): a last line that is a single decimal digit
with no trailing newline strips to the empty string and aborts with the
not-an-int error even though the line is a valid id (`pyIsDecimal [c]`
holds), whereas any line whose text minus its final character is decimal
passes the gate — the not-an-int abort can never carry such a line's
`line[:-1]`. -/
theorem lastline_digit_quirk (pre : List (List Char)) (c : Char) (acc acc' : List ℕ)
    (hc : c.isDigit = true) (hpre : readLines pre acc = Except.ok acc') :
    readLines (pre ++ [[c]]) acc = Except.error (Err.ciIsNotAnInt []) ∧
    pyIsDecimal [c] = true ∧
    (∀ line rest acc2, pyIsDecimal (lineInit line) = true →
      readLines (line :: rest) acc2 ≠ Except.error (Err.ciIsNotAnInt (lineInit line))) := by
  refine ⟨?_, ?_, ?_⟩
  · rw [readLines_append, hpre]
    dsimp only
    exact readLines_cons_gate [c] [] acc' rfl
  · simp [pyIsDecimal, hc]
  · intro line rest acc2 hgate h
    have := readLines_error_gate _ _ _ h
    rw [hgate] at this
    cases this

/-- Witness for C10 on the file `42\n7` (last line `7`, no newline). -/
theorem lastline_digit_quirk_witness :
    readLines ([['4', '2', '\n']] ++ [['7']]) [] = Except.error (Err.ciIsNotAnInt []) ∧
    pyIsDecimal ['7'] = true ∧
    (∀ line rest acc2, pyIsDecimal (lineInit line) = true →
      readLines (line :: rest) acc2 ≠ Except.error (Err.ciIsNotAnInt (lineInit line))) :=
  lastline_digit_quirk [['4', '2', '\n']] '7' [] [42] (by decide) rfl

end Network
